import Mathlib

/-!
Shallow embedding of the `std-dev` repository (Rust) and verification of the
frozen claims C1..C10.

Modelling conventions:
* `f64` values are modelled as `ℚ` wherever the code only does field
  arithmetic and comparisons on them; division by zero yields `0` in `ℚ`
  (the code never hits that case in the situations the claims quantify over,
  and where it matters it is noted next to the definition).
* Rust `usize` is `ℕ`; a `usize` subtraction that may underflow (a panic in
  debug builds) is modelled with `checkedSub`, returning `none` on underflow.
* panics are modelled by `Option`/`Except` with a dedicated error constructor
  per panic site, so distinct failure sites stay distinguishable.
* iteration order of `HashMap` (used by `optimize_values`) is unspecified in
  Rust; the model fixes first-occurrence order.  All claims about
  `optimize_values` are insensitive to the order of the returned clusters.
-/

set_option linter.unusedVariables false

namespace StdDev
/-- A cluster, `(value, count)` — `type Cluster = (f64, usize)` in `lib.rs`. -/
abbrev Cluster := ℚ × ℕ

/-- A borrowed list of clusters (the slice inside `ClusterList` / `MultipleList`). -/
abbrev Clusters := List Cluster

/-- `ClusterList::size` / `MultipleList::len`: total weight, the sum of all counts. -/
def size (l : Clusters) : ℕ := (l.map Prod.snd).sum

/-- Checked `usize` subtraction: Rust `a - b` panics (debug) on underflow. -/
def checkedSub (a b : ℕ) : Option ℕ := if b ≤ a then some (a - b) else none

/-! ## `main.rs`: `MultipleList::median`

```rust
fn median(&self) -> f64 {
    let len = self.len();
    let even = len % 2 == 0;
    let mut len = len;
    let target = len / 2;
    for (pos, (v, count)) in self.list.iter().enumerate() {
        len -= *count;
        if len + 1 == target && even {
            let mean = (*v + self.list[pos - 1].0) / 2.0;
            return mean;
        }
        if len < target || len == target && !even {
            return *v;
        }
    }
    0.0
}
```
The walk is modelled with the previous value carried along (`prev`), because
`self.list[pos - 1]` is exactly the previously visited cluster; when `pos = 0`
that index underflows and the code panics, modelled as `none`. -/
def multipleMedianGo (target : ℕ) (ev : Bool) : Option ℚ → ℕ → Clusters → Option ℚ
  | _, _, [] => some 0
  | prev, len, (v, c) :: t =>
    let lenNew := len - c
    if lenNew + 1 = target ∧ ev = true then
      match prev with
      | some pv => some ((v + pv) / 2)
      | none => none
    else if lenNew < target ∨ (lenNew = target ∧ ¬ ev = true) then
      some v
    else
      multipleMedianGo target ev (some v) lenNew t

/-- `MultipleList::median` (`main.rs` lines 38–55), `none` = panic. -/
def multipleMedian (l : Clusters) : Option ℚ :=
  multipleMedianGo (size l / 2) (size l % 2 == 0) none (size l) l

/-- Claim-side notion: the value of the cluster containing the 1-based weighted
position `p` (the first cluster whose cumulative count reaches `p`). -/
def clusterAt (p : ℕ) : Clusters → Option ℚ
  | [] => none
  | (v, c) :: t => if p ≤ c then some v else clusterAt (p - c) t

/-! ## `lib.rs`: `ClusterList::split_start` / `ClusterList::split_end`

`split_start` pushes whole clusters while `sum < len` and, on the cluster
where the running sum first reaches `len`, pushes `(v, count - (sum - len))`.
`split_end` walks in reverse, inserting at the front, and on the break pushes
`(v, count - (len - sum))` — note the operands of the inner subtraction: with
`sum >= len` the `usize` expression `len - sum` underflows unless `sum == len`.
Both end with `debug_assert_eq!(len, Self::size(&list))`, modelled as a final
check that fails (`none`) when the assert would. -/
def splitStartGo (len : ℕ) : ℕ → Clusters → Option Clusters
  | _, [] => some []
  | sum, (v, c) :: t =>
    let sumNew := sum + c
    if len ≤ sumNew then
      (checkedSub c (sumNew - len)).map fun cNew => [(v, cNew)]
    else
      (splitStartGo len sumNew t).map fun r => (v, c) :: r

/-- `ClusterList::split_start` (`lib.rs` lines 124–138); the returned pair is the
`OwnedClusterList { list, len }`, `none` = panic (subtraction underflow or the
`debug_assert_eq!`). -/
def splitStart (l : Clusters) (len : ℕ) : Option (Clusters × ℕ) :=
  (splitStartGo len 0 l).bind fun r => if size r = len then some (r, len) else none

def splitEndGo (len : ℕ) : ℕ → Clusters → Clusters → Option Clusters
  | _, acc, [] => some acc
  | sum, acc, (v, c) :: t =>
    let sumNew := sum + c
    if len ≤ sumNew then
      ((checkedSub len sumNew).bind fun d => checkedSub c d).map fun cNew => (v, cNew) :: acc
    else
      splitEndGo len sumNew ((v, c) :: acc) t

/-- `ClusterList::split_end` (`lib.rs` lines 140–154): reverse iteration is
modelled by recursing over `l.reverse`, with `insert(0, _)` building `acc`. -/
def splitEnd (l : Clusters) (len : ℕ) : Option (Clusters × ℕ) :=
  (splitEndGo len 0 [] l.reverse).bind fun r => if size r = len then some (r, len) else none

/-! ## `lib.rs`: `F64OrdHash` and `ClusterList::optimize_values`

`F64OrdHash` hashes and compares `f64` values by their raw IEEE-754 bit
pattern (`to_bits`).  For `optimize_values` the only thing that matters about
an `f64` is that bit pattern, so a value is modelled by it directly.
`optimize_values` inserts every cluster into a `HashMap` keyed by
`F64OrdHash(v)`, adding counts, and rebuilds the list from the map; the map
iteration order is unspecified, and the model fixes first-occurrence order
(all claims proved below are insensitive to the order of the output). -/

/-- An `f64` represented by its raw IEEE-754 bit pattern (`f64::to_bits`). -/
structure F64Bits where
  bits : ℕ
deriving DecidableEq

/-- `F64OrdHash::key`: the bit pattern used for equality and hashing. -/
def F64Bits.key (v : F64Bits) : ℕ := v.bits

/-- One `HashMap` insertion of `optimize_values`:
`*collected.entry(F64OrdHash(*v)).or_insert(0) += count`.  The entry keyed by
`key v` gets `c` added to its count; a missing key is appended. -/
def upsert {α : Type} {κ : Type} [DecidableEq κ] (key : α → κ) (v : α) (c : ℕ) :
    List (α × ℕ) → List (α × ℕ)
  | [] => [(v, c)]
  | (w, d) :: t => if key w = key v then (w, d + c) :: t else (w, d) :: upsert key v c t

/-- The whole map built by `optimize_values`, as an association list in
first-occurrence order. -/
def collectBy {α : Type} {κ : Type} [DecidableEq κ] (key : α → κ) (l : List (α × ℕ)) :
    List (α × ℕ) :=
  l.foldl (fun acc p => upsert key p.1 p.2 acc) []

/-- Total weight of a modelled cluster list (sum of counts). -/
def weight {α : Type} (l : List (α × ℕ)) : ℕ := (l.map Prod.snd).sum

/-- Number of clusters in `l` whose value has bit-key `k`. -/
def keyOccs {α : Type} {κ : Type} [DecidableEq κ] (key : α → κ) (k : κ) :
    List (α × ℕ) → ℕ
  | [] => 0
  | (w, _) :: t => (if key w = k then 1 else 0) + keyOccs key k t

/-- Total count carried by clusters of `l` whose value has bit-key `k`. -/
def keyWeight {α : Type} {κ : Type} [DecidableEq κ] (key : α → κ) (k : κ) :
    List (α × ℕ) → ℕ
  | [] => 0
  | (w, d) :: t => (if key w = k then d else 0) + keyWeight key k t

/-- `OwnedClusterList` over bit-pattern values: the list plus the cached total
weight `len`. -/
structure OwnedF64ClusterList where
  list : List (F64Bits × ℕ)
  len : ℕ
deriving DecidableEq

/-- `ClusterList::optimize_values` (`lib.rs` lines 161–172): merge clusters
with bit-identical values, keep the cached `len` unchanged. -/
def optimizeValues (x : OwnedF64ClusterList) : OwnedF64ClusterList :=
  { list := collectBy F64Bits.key x.list, len := x.len }

/-- Keys of the accumulated list. -/
def keysOf {α : Type} {κ : Type} [DecidableEq κ] (key : α → κ) (l : List (α × ℕ)) :
    List κ := l.map fun p => key p.1

/-- The bit pattern of `+0.0`. -/
def posZeroBits : F64Bits := ⟨0⟩

/-- The bit pattern of `-0.0` (sign bit set). -/
def negZeroBits : F64Bits := ⟨0x8000000000000000⟩

/-- A quiet NaN bit pattern. -/
def nanBitsA : F64Bits := ⟨0x7FF8000000000000⟩

/-- A quiet NaN with a different payload. -/
def nanBitsB : F64Bits := ⟨0x7FF8000000000001⟩

/-! ## `regression.rs`

Panic sites are modelled with one error constructor per site so that the
distinct failure modes of the code stay distinguishable:
* `insufficientData` — the `debug_assert!(degree < len, ...)` guarding
  `ols::polynomial` (active in debug builds, which are modelled here);
* `iterUnwrap` — `predictor_iter.next().unwrap()` / `from_iterator` running
  out of items (never reached when `len` is the length of the input slices);
* `inverseUnwrap` — `(&t * &design).try_inverse().unwrap()` on a singular
  normal-equations matrix;
* `minUnwrap` — `derived::min(...).unwrap()` on an empty slice;
* `assertFail` — the `assert!`/`assert_eq!` preconditions of
  `power`/`exponential`/`determination_slice`/`slow_linear`;
* `finalUnwrap` — the `best.unwrap()` at the end of `best_fit`. -/
inductive Panic : Type
  | assertFail
  | insufficientData
  | iterUnwrap
  | inverseUnwrap
  | minUnwrap
  | finalUnwrap
deriving DecidableEq

/-- Skip index `a`: the embedding `Fin n → Fin (n+1)` that misses `a`; used to
delete a row/column when building minors. -/
def skipF {n : ℕ} (a : Fin (n + 1)) (r : Fin n) : Fin (n + 1) :=
  if (r : ℕ) < (a : ℕ) then r.castSucc else r.succ

/-- Determinant by Laplace expansion along the first row (exact arithmetic
model of the matrix inversion used through `nalgebra`). -/
def detN : (n : ℕ) → (Fin n → Fin n → ℚ) → ℚ
  | 0, _ => 1
  | n + 1, M =>
      ((List.finRange (n + 1)).map fun j =>
        (-1 : ℚ) ^ (j : ℕ) * M 0 j * detN n fun r c => M r.succ (skipF j c)).sum

/-- Adjugate matrix: `adj(M) i j = (-1)^(i+j) det(M with row j, column i deleted)`,
so that `M⁻¹ = det(M)⁻¹ • adj(M)`. -/
def adjugateN : (n : ℕ) → (Fin n → Fin n → ℚ) → Fin n → Fin n → ℚ
  | 0, _ => fun i _ => i.elim0
  | n + 1, M => fun i j =>
      (-1 : ℚ) ^ ((i : ℕ) + (j : ℕ)) * detN n fun r c => M (skipF j r) (skipF i c)

/-- Entry `(r, c)` of the design matrix of `ols::polynomial`: column `c` holds
`predictor_r ^ c` (column 0 is all ones, column 1 the raw predictors). -/
def designEntry (xs : List ℚ) (r c : ℕ) : ℚ := (xs.getD r 0) ^ c

/-- The normal-equations matrix `Xᵀ * X` of the design matrix. -/
def gramN (xs : List ℚ) (len degree : ℕ) (i j : Fin (degree + 1)) : ℚ :=
  ((List.finRange len).map fun r => designEntry xs (r : ℕ) (i : ℕ) * designEntry xs (r : ℕ) (j : ℕ)).sum

/-- The vector `Xᵀ * y`. -/
def xtyN (xs ys : List ℚ) (len degree : ℕ) (i : Fin (degree + 1)) : ℚ :=
  ((List.finRange len).map fun r => designEntry xs (r : ℕ) (i : ℕ) * ys.getD (r : ℕ) 0).sum

/-- `ols::polynomial` (`regression.rs` lines 1216–1309, `polynomial_simple`):
solve `coefficients = (XᵀX)⁻¹ Xᵀ y`.  The leading `debug_assert!(degree < len)`
is modelled active (debug build).  `try_inverse().unwrap()` panics exactly
when `XᵀX` is singular, i.e. when its determinant vanishes; otherwise the
inverse is `det⁻¹ • adjugate`.  The returned list has length `degree + 1`,
index = power. -/
def polynomialE (xs ys : List ℚ) (len degree : ℕ) : Except Panic (List ℚ) :=
  if ¬ degree < len then .error .insufficientData
  else if (1 ≤ degree ∧ xs.length < len) ∨ ys.length < len then .error .iterUnwrap
  else if detN (degree + 1) (gramN xs len degree) = 0 then .error .inverseUnwrap
  else
    .ok ((List.finRange (degree + 1)).map fun i =>
      (detN (degree + 1) (gramN xs len degree))⁻¹ *
        ((List.finRange (degree + 1)).map fun j =>
          adjugateN (degree + 1) (gramN xs len degree) i j * xtyN xs ys len degree j).sum)

/-- `LinearCoefficients { k, m }` — slope and intercept. -/
structure LinearCoefficients where
  k : ℚ
  m : ℚ
deriving DecidableEq

/-- `LinearOls::model`: degree-1 `ols::polynomial`; `k = coefficients[1]`,
`m = coefficients[0]`. -/
def linearOlsE (xs ys : List ℚ) : Except Panic LinearCoefficients :=
  (polynomialE xs ys xs.length 1).map fun cs => { k := cs.getD 1 0, m := cs.getD 0 0 }

/-- `PowerCoefficients` — `y = k * (x + pa)^e - oa`. -/
structure PowerCoefficients where
  k : ℚ
  e : ℚ
  predictorAdditive : Option ℚ
  outcomeAdditive : Option ℚ
deriving DecidableEq

/-- `ExponentialCoefficients` — `y = k * b^(x + pa) - oa`. -/
structure ExponentialCoefficients where
  k : ℚ
  b : ℚ
  predictorAdditive : Option ℚ
  outcomeAdditive : Option ℚ
deriving DecidableEq

/-- The type-erased model (`DynModel`), as a sum of the concrete variants. -/
inductive RModel : Type
  | linear (c : LinearCoefficients)
  | poly (cs : List ℚ)
  | power (c : PowerCoefficients)
  | exponential (c : ExponentialCoefficients)
deriving DecidableEq

/-- `LinearCoefficients::predict_outcome`. -/
def predictLinear (c : LinearCoefficients) (x : ℚ) : ℚ := c.k * x + c.m

/-- `PolynomialCoefficients::predict_outcome`: `Σ coefficient * x^index`. -/
def predictPoly (cs : List ℚ) (x : ℚ) : ℚ :=
  (cs.enum.map fun p => x ^ p.1 * p.2).sum

/-- `PowerCoefficients::predict_outcome`; `powf` is the abstract `f64::powf`
primitive the embedding is parameterized over. -/
def predictPower (powf : ℚ → ℚ → ℚ) (c : PowerCoefficients) (x : ℚ) : ℚ :=
  c.k * powf (x + c.predictorAdditive.getD 0) c.e - c.outcomeAdditive.getD 0

/-- `ExponentialCoefficients::predict_outcome`. -/
def predictExponential (powf : ℚ → ℚ → ℚ) (c : ExponentialCoefficients) (x : ℚ) : ℚ :=
  c.k * powf c.b (x + c.predictorAdditive.getD 0) - c.outcomeAdditive.getD 0

/-- `Determination::determination` (`regression.rs` lines 91–111):
`R² = 1 - res / tot`.  In the `ℚ` model a division by zero yields `0` (the
float code would produce NaN/∞ there); no claim below depends on that case. -/
def determination (predict : ℚ → ℚ) (xs ys : List ℚ) (len : ℕ) : ℚ :=
  let outcomesMean := ys.sum / (len : ℚ)
  let res := ((xs.zip ys).map fun p => (p.2 - predict p.1) * (p.2 - predict p.1)).sum
  let tot := (ys.map fun y => (y - outcomesMean) * (y - outcomesMean)).sum
  1 - res / tot

/-- `Determination::determination_slice`: asserts equal lengths, then calls
`determination` with `len = predictors.len()`. -/
def determinationSlice (predict : ℚ → ℚ) (xs ys : List ℚ) : Except Panic ℚ :=
  if xs.length = ys.length then .ok (determination predict xs ys xs.length)
  else .error .assertFail

/-- Truncation toward zero, the rounding used by the Rust `%` remainder. -/
def qtrunc (q : ℚ) : ℤ := if 0 ≤ q then ⌊q⌋ else ⌈q⌉

/-- Rust `e % 1.0`: remainder with the sign of the dividend, `e - trunc e`. -/
def fmodOne (q : ℚ) : ℚ := q - (qtrunc q : ℚ)

/-- The power-candidate score multiplier of `best_fit`
(`regression.rs` lines 235–247):
```rust
let distance_from_zero = -(0.5 - power.e % 1.0).abs() + 0.5;
let mut power_bump = if distance_from_zero < 0.15 { POWER_BUMP } else { 1.0 };
let certainty = power.determination_slice(predictors, outcomes);
if certainty > 0.8 { power_bump *= EXPONENTIAL_BUMP; }
if certainty > 0.92 { power_bump *= EXPONENTIAL_BUMP; }
```
with `POWER_BUMP = 1.5` and `EXPONENTIAL_BUMP = 1.3`. -/
def powerBump (e r : ℚ) : ℚ :=
  let distanceFromZero := -|1 / 2 - fmodOne e| + 1 / 2
  let b0 : ℚ := if distanceFromZero < 3 / 20 then 3 / 2 else 1
  let b1 : ℚ := if 4 / 5 < r then b0 * (13 / 10) else b0
  if 23 / 25 < r then b1 * (13 / 10) else b1

/-- The exponential-candidate score multiplier of `best_fit`
(`regression.rs` lines 263–270). -/
def exponentialBump (r : ℚ) : ℚ :=
  let b0 : ℚ := if 4 / 5 < r then 13 / 10 else 1
  if 23 / 25 < r then b0 * (13 / 10) else b0

/-! ## `regression.rs`, module `theil_sen` -/

/-- Insertion of one element into a sorted list (ascending). -/
def insertSorted (x : ℚ) : List ℚ → List ℚ
  | [] => [x]
  | y :: t => if x ≤ y then x :: y :: t else y :: insertSorted x t

/-- Insertion sort, ascending (the total order `F64OrdHash` gives on
non-NaN floats). -/
def sortQ (l : List ℚ) : List ℚ := l.foldr insertSorted []

/-- Modelled from the spec: the `percentile` module (`src/percentile.rs`),
which `theil_sen::slow_linear` calls as `percentile::median`, is not under
`src/` (only `lib.rs` re-exports and this caller are).  Per the spec, the
median of an unweighted, single-count list is the value at the middle of the
sorted sequence, and for an even length the returned `MeanValue` resolves to
the arithmetic mean of the two middle values. -/
def medianSpec (l : List ℚ) : ℚ :=
  if (sortQ l).length % 2 = 0 then
    ((sortQ l).getD ((sortQ l).length / 2 - 1) 0 + (sortQ l).getD ((sortQ l).length / 2) 0) / 2
  else (sortQ l).getD ((sortQ l).length / 2) 0

/-- `iter().enumerate()`. -/
def enumFromTS {α : Type} : ℕ → List α → List (ℕ × α)
  | _, [] => []
  | i, x :: t => (i, x) :: enumFromTS (i + 1) t

/-- `theil_sen::permutations` (`regression.rs` lines 1327–1343): for each
position `pos` holding `(t11, t21) = (s1[pos], s2[pos])`, pair it with every
later `(t12, t22) = (s1[j], s2[j])`, `j > pos`, yielding
`((t11, t12), (t21, t22))` — note both components of the *first* pair come
from `s1` and both components of the second pair from `s2`. -/
def permutationsTS (s1 s2 : List ℚ) : List ((ℚ × ℚ) × (ℚ × ℚ)) :=
  ((enumFromTS 0 (s1.zip s2)).map fun pe =>
    ((s1.drop (pe.1 + 1)).zip (s2.drop (pe.1 + 1))).map fun q =>
      ((pe.2.1, q.1), (pe.2.2, q.2))).flatten

/-- `theil_sen::slow_linear` (`regression.rs` lines 1360–1391).  The closure
destructures each yielded item as `((x1, y1), (x2, y2))` and computes
`(y1 - y2) / (x1 - x2)`; since the item is really `((x_i, x_j), (y_i, y_j))`,
the computed value is `(x_j - y_j) / (x_i - y_i)`. -/
def slowLinear (xs ys : List ℚ) : Except Panic LinearCoefficients :=
  if xs.length = ys.length then
    .ok
      { k := medianSpec ((permutationsTS xs ys).map fun p => (p.1.2 - p.2.2) / (p.1.1 - p.2.1))
        m := medianSpec ys
              - medianSpec ((permutationsTS xs ys).map fun p => (p.1.2 - p.2.2) / (p.1.1 - p.2.1))
                * medianSpec xs }
  else .error .assertFail

/-! ## `regression.rs`, module `derived` and `best_fit`

`f64::log2`, `2.0_f64.powf` (`exp2`) and `f64::powf` are transcendental
primitives with no exact `ℚ` counterpart; the embedding takes them as
function parameters `log2`, `exp2`, `powf : ℚ → ...`, and the general theorems
below hold for every instantiation.  The linear estimator
(`impl LinearEstimator`) is likewise a parameter `est`. -/

/-- The additive-offset rule shared by `power_given_min` and
`exponential_given_min`: an offset `1 - min` is applied when `min < 1`. -/
def powAdd (m : ℚ) : Option ℚ := if m < 1 then some (1 - m) else none

/-- `derived::power_given_min` (`regression.rs` lines 400–438): log₂-transform
both slices (after offsetting), fit a line, back-transform `k = 2^m`,
`e = slope`. -/
def powerGivenMin (log2 exp2 : ℚ → ℚ)
    (est : List ℚ → List ℚ → Except Panic LinearCoefficients)
    (xs ys : List ℚ) (pmin omin : ℚ) : Except Panic PowerCoefficients :=
  if xs.length = ys.length then
    if 2 < xs.length then
      match est (xs.map fun p => log2 (p + (powAdd pmin).getD 0))
          (ys.map fun y => log2 (y + (powAdd omin).getD 0)) with
      | .error e => .error e
      | .ok c =>
          .ok { k := exp2 c.m, e := c.k,
                predictorAdditive := powAdd pmin, outcomeAdditive := powAdd omin }
    else .error .assertFail
  else .error .assertFail

/-- `derived::exponential_given_min` (`regression.rs` lines 527–567):
log₂-transform only the outcomes; offset the predictors when an offset is
`Some`; back-transform `k = 2^m`, `b = 2^slope`. -/
def exponentialGivenMin (log2 exp2 : ℚ → ℚ)
    (est : List ℚ → List ℚ → Except Panic LinearCoefficients)
    (xs ys : List ℚ) (pmin omin : ℚ) : Except Panic ExponentialCoefficients :=
  if xs.length = ys.length then
    if 2 < xs.length then
      match est (match powAdd pmin with
            | some a => xs.map fun p => p + a
            | none => xs)
          (ys.map fun y => log2 (y + (powAdd omin).getD 0)) with
      | .error e => .error e
      | .ok c =>
          .ok { k := exp2 c.m, b := exp2 c.k,
                predictorAdditive := powAdd pmin, outcomeAdditive := powAdd omin }
    else .error .assertFail
  else .error .assertFail

/-- The `update_best!` macro of `best_fit` (`regression.rs` lines 196–219):
replace the stored `(model, weighted)` pair when the new weighted score is
strictly greater. -/
def updateBest (best : Option (RModel × ℚ)) (m : RModel) (w : ℚ) : Option (RModel × ℚ) :=
  match best with
  | some (bm, err) => if w > err then some (m, w) else some (bm, err)
  | none => some (m, w)

/-- The power/exponential candidate block of `best_fit`
(`regression.rs` lines 224–273), entered only when both minima are ≥ 1. -/
def bestFitPowerStep (log2 exp2 : ℚ → ℚ) (powf : ℚ → ℚ → ℚ)
    (est : List ℚ → List ℚ → Except Panic LinearCoefficients)
    (xs ys : List ℚ) (pmin omin : ℚ) : Except Panic (Option (RModel × ℚ)) :=
  if 1 ≤ pmin ∧ 1 ≤ omin then
    match powerGivenMin log2 exp2 est xs ys pmin omin with
    | .error e => .error e
    | .ok pc =>
      match determinationSlice (predictPower powf pc) xs ys with
      | .error e => .error e
      | .ok certainty =>
        match exponentialGivenMin log2 exp2 est xs ys pmin omin with
        | .error e => .error e
        | .ok ec =>
          match determinationSlice (predictExponential powf ec) xs ys with
          | .error e => .error e
          | .ok ce =>
            .ok (updateBest
                  (updateBest none (.power pc) (certainty * powerBump pc.e certainty))
                  (.exponential ec) (ce * exponentialBump ce))
  else .ok none

/-- The degree-2 candidate block of `best_fit` (`regression.rs` lines
274–283), entered only when `predictors.len() > 15`. -/
def bestFitPoly2Step (xs ys : List ℚ) (best : Option (RModel × ℚ)) :
    Except Panic (Option (RModel × ℚ)) :=
  if 15 < xs.length then
    match polynomialE xs ys xs.length 2 with
    | .error e => .error e
    | .ok cs =>
      match determinationSlice (predictPoly cs) xs ys with
      | .error e => .error e
      | .ok e0 => .ok (updateBest best (.poly cs) e0)
  else .ok best

/-- The degree-3 candidate block of `best_fit` (`regression.rs` lines
284–293), entered only when `predictors.len() > 50`; its score carries the
`THIRD_DEGREE_DISADVANTAGE = 0.94` multiplier. -/
def bestFitPoly3Step (xs ys : List ℚ) (best : Option (RModel × ℚ)) :
    Except Panic (Option (RModel × ℚ)) :=
  if 50 < xs.length then
    match polynomialE xs ys xs.length 3 with
    | .error e => .error e
    | .ok cs =>
      match determinationSlice (predictPoly cs) xs ys with
      | .error e => .error e
      | .ok e0 => .ok (updateBest best (.poly cs) (e0 * (94 / 100)))
  else .ok best

/-- The unconditional linear candidate and the final
`best.unwrap()` of `best_fit` (`regression.rs` lines 295–299); the score is
`e + LINEAR_BUMP` with `LINEAR_BUMP = 0`. -/
def bestFitLinearStep (est : List ℚ → List ℚ → Except Panic LinearCoefficients)
    (xs ys : List ℚ) (best : Option (RModel × ℚ)) : Except Panic (RModel × ℚ) :=
  match est xs ys with
  | .error e => .error e
  | .ok lin =>
    match determinationSlice (predictLinear lin) xs ys with
    | .error e => .error e
    | .ok e0 =>
      match updateBest best (.linear lin) (e0 + 0) with
      | some p => .ok p
      | none => .error .finalUnwrap

/-- `best_fit` up to and including its final `best.unwrap()` — the
`(DynModel, f64)` pair the selector tracks.  The source then returns `.0` of
this pair (see `bestFit`). -/
def bestFitPair (log2 exp2 : ℚ → ℚ) (powf : ℚ → ℚ → ℚ)
    (est : List ℚ → List ℚ → Except Panic LinearCoefficients)
    (xs ys : List ℚ) : Except Panic (RModel × ℚ) :=
  match xs.min? with
  | none => .error .minUnwrap
  | some pmin =>
    match ys.min? with
    | none => .error .minUnwrap
    | some omin =>
      match bestFitPowerStep log2 exp2 powf est xs ys pmin omin with
      | .error e => .error e
      | .ok b0 =>
        match bestFitPoly2Step xs ys b0 with
        | .error e => .error e
        | .ok b1 =>
          match bestFitPoly3Step xs ys b1 with
          | .error e => .error e
          | .ok b2 => bestFitLinearStep est xs ys b2

/-- `best_fit` (`regression.rs` lines 178–299): `best.unwrap().0` — only the
model is returned to the caller. -/
def bestFit (log2 exp2 : ℚ → ℚ) (powf : ℚ → ℚ → ℚ)
    (est : List ℚ → List ℚ → Except Panic LinearCoefficients)
    (xs ys : List ℚ) : Except Panic RModel :=
  match bestFitPair log2 exp2 powf est xs ys with
  | .ok p => .ok p.1
  | .error e => .error e

/-! ### Concrete instantiation of the transcendental primitives

The witness inputs below are `predictors = [1, 2, 4]`, `outcomes = [2, 8, 32]`
(data generated by `y = 2x²`).  On these inputs the pipelines evaluate the
primitives only at the points tabulated here, where the tables agree exactly
with the `f64` functions — except `exp2C (9/7)`, the exponential candidate
base `2^(9/7)`, which is irrational and is sent to 0.  That choice cannot
affect which candidate wins or its tracked score: the exponential candidate
R² is `1 - res/tot ≤ 1` for every instantiation (`res ≥ 0`, `tot = 504 > 0`),
so its bumped score is at most `1.69`, below the power candidate score
`2.535`. -/

/-- Concrete `f64::log2` instantiation (exact on the powers of two used). -/
def log2C (q : ℚ) : ℚ :=
  if q = 1 then 0 else if q = 2 then 1 else if q = 4 then 2
  else if q = 8 then 3 else if q = 32 then 5 else 0

/-- Concrete `2.0_f64.powf` instantiation (exact on the integers used). -/
def exp2C (q : ℚ) : ℚ :=
  if q = 0 then 1 else if q = 1 then 2 else if q = 2 then 4 else 0

/-- Concrete `f64::powf` instantiation (exact on the exponents used). -/
def powfC (x y : ℚ) : ℚ :=
  if y = 0 then 1 else if y = 1 then x else if y = 2 then x * x
  else if y = 4 then x * x * (x * x) else 0

@[simp] theorem size_nil : size [] = 0 := rfl

@[simp] theorem size_cons (x : Cluster) (t : Clusters) : size (x :: t) = x.2 + size t := rfl

theorem size_append (a b : Clusters) : size (a ++ b) = size a + size b := by
  induction a with
  | nil => simp
  | cons x t ih => simp [size_cons, ih]; ring

/-! ### Walk lemmas for `MultipleList::median` -/

/-- Once the walk has visited a cluster, `prev` is `some _` and the walk can no
longer panic. -/
theorem multipleMedianGo_some_ne_none (target : ℕ) (ev : Bool) :
    ∀ (t : Clusters) (v0 : ℚ) (len : ℕ), multipleMedianGo target ev (some v0) len t ≠ none := by
  intro t
  induction t with
  | nil => intro v0 len; simp [multipleMedianGo]
  | cons x t ih =>
    intro v0 len
    obtain ⟨v, c⟩ := x
    simp only [multipleMedianGo]
    split
    · simp
    · split
      · simp
      · exact ih v (len - c)

/-- For odd total weight the walk returns the value of the cluster containing
weighted position `n / 2 + 1 - s`, where `s` is the weight already consumed. -/
theorem multipleMedianGo_odd (n : ℕ) (hodd : n % 2 = 1) :
    ∀ (l : Clusters) (s : ℕ) (prev : Option ℚ),
      s + size l = n → s ≤ n / 2 →
      multipleMedianGo (n / 2) false prev (n - s) l = clusterAt (n / 2 + 1 - s) l := by
  intro l
  induction l with
  | nil =>
    intro s prev hsum hs
    exfalso
    simp only [size_nil, Nat.add_zero] at hsum
    omega
  | cons x t ih =>
    intro s prev hsum hs
    obtain ⟨v, c⟩ := x
    simp only [size_cons] at hsum
    simp only [multipleMedianGo, clusterAt]
    rw [if_neg (by simp)]
    have hiff : (n - s - c < n / 2 ∨ (n - s - c = n / 2 ∧ ¬ (false : Bool) = true))
        ↔ n / 2 + 1 - s ≤ c := by
      simp only [Bool.false_eq_true, not_false_eq_true, and_true]
      omega
    by_cases hc : n / 2 + 1 - s ≤ c
    · rw [if_pos (hiff.mpr hc), if_pos hc]
    · rw [if_neg (fun h => hc (hiff.mp h)), if_neg hc]
      rw [Nat.sub_sub, Nat.sub_sub]
      exact ih (s + c) (some v) (by omega) (by omega)

/-- For even total weight the walk skips every cluster whose cumulative weight
stays at or below `n / 2`, carrying the last skipped value as `prev`. -/
theorem multipleMedianGo_skip (n : ℕ) (hev : n % 2 = 0) :
    ∀ (A rest : Clusters) (s : ℕ) (prev : Option ℚ),
      s + size A + size rest = n → s + size A ≤ n / 2 →
      multipleMedianGo (n / 2) true prev (n - s) (A ++ rest)
        = multipleMedianGo (n / 2) true (A.foldl (fun p x => some x.1) prev)
            (n - (s + size A)) rest := by
  intro A
  induction A with
  | nil => intro rest s prev h1 h2; simp
  | cons x A ih =>
    intro rest s prev h1 h2
    obtain ⟨v, c⟩ := x
    simp only [size_cons] at h1 h2
    simp only [List.cons_append, multipleMedianGo]
    rw [if_neg (by rintro ⟨h, -⟩; omega)]
    rw [if_neg (by simp only [not_true, and_false, or_false]; omega)]
    rw [Nat.sub_sub]
    simp only [List.append_eq]
    rw [ih rest (s + c) (some v) (by omega) (by omega), List.foldl_cons]
    have harg : n - (s + c + size A) = n - (s + size ((v, c) :: A)) := by
      simp only [size_cons]; omega
    rw [harg]

/-! ### Claim theorems about `MultipleList::median` -/

/-- C1, counterexample.  The claim says: for an ascending-sorted cluster list
with even total weight whose midpoint falls exactly between two distinct-value
clusters, `median` returns the arithmetic mean of the two boundary values.
`[(1,2),(2,2)]` is sorted, has total weight 4, and its midpoint (between
weighted positions 2 and 3) falls exactly between the clusters of values 1 and
2, so the claim predicts `1.5`; the code returns `2`, because the averaging
branch fires only when the cluster after the midpoint ends exactly at weighted
position `n/2 + 1` (here it ends at position 4). -/
theorem claim1_median_even_boundary_cex :
    multipleMedian [((1 : ℚ), 2), (2, 2)] = some 2
    ∧ multipleMedian [((1 : ℚ), 2), (2, 2)] ≠ some (3 / 2) := by
  constructor
  · decide
  · norm_num [multipleMedian, multipleMedianGo, size]

/-- C1, amended.  For every cluster list (counts ≥ 1) sorted ascending by
value, with `n` its total weight: (a) if `n` is odd, `median` returns the value
of the cluster containing the middle weighted position `n/2 + 1`; (b) if `n` is
even and the cluster containing weighted position `n/2 + 1` ends exactly at
cumulative weight `n/2 + 1` (and is not the first cluster), `median` returns
the arithmetic mean of that value and the preceding value — in particular this
holds when the midpoint falls between two clusters and the upper cluster has
count 1; (c) if `n` is even and that cluster extends past position `n/2 + 1`,
`median` returns its value — covering the dominant-tail example
`[(1,1),(2,3)]` as well as the counterexample above. -/
theorem claim1_median_characterization :
    ∀ l : Clusters,
      (∀ x ∈ l, 1 ≤ x.2) → (l.map Prod.fst).Chain' (· ≤ ·) →
      (size l % 2 = 1 → multipleMedian l = clusterAt (size l / 2 + 1) l)
      ∧ (∀ A v1 c1 v2 c2 B, size l % 2 = 0 → l = A ++ (v1, c1) :: (v2, c2) :: B →
          size A + c1 + c2 = size l / 2 + 1 → multipleMedian l = some ((v2 + v1) / 2))
      ∧ (∀ A v c B, size l % 2 = 0 → l = A ++ (v, c) :: B →
          size A ≤ size l / 2 → size l / 2 + 2 ≤ size A + c → multipleMedian l = some v) := by
  intro l hcounts hsorted
  refine ⟨?_, ?_, ?_⟩
  · intro hodd
    have hbeq : (size l % 2 == 0) = false := by simp [hodd]
    unfold multipleMedian
    rw [hbeq]
    have h := multipleMedianGo_odd (size l) hodd l 0 none (by simp) (by omega)
    simpa using h
  · intro A v1 c1 v2 c2 B hev heq hsum
    subst heq
    have hc1 : 1 ≤ c1 := hcounts (v1, c1) (by simp)
    have hc2 : 1 ≤ c2 := hcounts (v2, c2) (by simp)
    have hN : size (A ++ (v1, c1) :: (v2, c2) :: B) = size A + c1 + c2 + size B := by
      rw [size_append]; simp only [size_cons]; ring
    have hbeq : (size (A ++ (v1, c1) :: (v2, c2) :: B) % 2 == 0) = true := by simp [hev]
    unfold multipleMedian
    rw [hbeq]
    set N := size (A ++ (v1, c1) :: (v2, c2) :: B) with hNdef
    have hA1 : size (A ++ [(v1, c1)]) = size A + c1 := by
      rw [size_append]; simp [size_cons]
    have hskip := multipleMedianGo_skip N hev (A ++ [(v1, c1)]) ((v2, c2) :: B) 0 none
      (by simp only [Nat.zero_add, hA1, size_cons]; omega)
      (by simp only [Nat.zero_add, hA1]; omega)
    simp only [Nat.sub_zero, Nat.zero_add, List.foldl_append, List.foldl_cons,
      List.foldl_nil, hA1] at hskip
    have hlist : A ++ (v1, c1) :: (v2, c2) :: B = (A ++ [(v1, c1)]) ++ ((v2, c2) :: B) := by
      simp
    rw [hlist, hskip]
    simp only [multipleMedianGo]
    rw [if_pos ⟨by omega, by trivial⟩]
  · intro A v c B hev heq hA hend
    subst heq
    have hN : size (A ++ (v, c) :: B) = size A + c + size B := by
      rw [size_append]; simp only [size_cons]; ring
    have hbeq : (size (A ++ (v, c) :: B) % 2 == 0) = true := by simp [hev]
    unfold multipleMedian
    rw [hbeq]
    set N := size (A ++ (v, c) :: B) with hNdef
    have hskip := multipleMedianGo_skip N hev A ((v, c) :: B) 0 none
      (by simp only [Nat.zero_add, size_cons]; omega)
      (by simp only [Nat.zero_add]; omega)
    simp only [Nat.sub_zero, Nat.zero_add] at hskip
    rw [hskip]
    simp only [multipleMedianGo]
    rw [if_neg (by rintro ⟨h, -⟩; omega)]
    rw [if_pos (Or.inl (by omega))]

/-- C1, witness: the amended characterization applied to the three concrete
examples named by the claim. -/
theorem claim1_median_characterization_witness :
    multipleMedian [((1 : ℚ), 1), (2, 1), (3, 1)] = some 2
    ∧ multipleMedian [((1 : ℚ), 1), (2, 1)] = some (3 / 2)
    ∧ multipleMedian [((1 : ℚ), 1), (2, 3)] = some 2 := by
  refine ⟨?_, ?_, ?_⟩
  · have h := (claim1_median_characterization [((1 : ℚ), 1), (2, 1), (3, 1)]
      (by decide) (by norm_num)).1 (by decide)
    rw [h]; decide
  · have h := (claim1_median_characterization [((1 : ℚ), 1), (2, 1)]
      (by decide) (by norm_num)).2.1 [] 1 1 2 1 [] (by decide) (by decide) (by decide)
    rw [h]; norm_num
  · exact (claim1_median_characterization [((1 : ℚ), 1), (2, 3)]
      (by decide) (by norm_num)).2.2 [(1, 1)] 2 3 [] (by decide) (by decide)
      (by decide) (by decide)

/-- C10 (confirmed): `median` panics (returns no value, modelled `none`)
exactly when the even-total-weight averaging condition fires on the very first
cluster, where it indexes `self.list[pos - 1]` with `pos = 0`; on every other
input the walk is total.  The single-cluster list `[(1.0, 2)]` is such an
input. -/
theorem claim10_median_first_cluster_panic :
    (∀ l : Clusters, multipleMedian l = none ↔
       ∃ v c t, l = (v, c) :: t ∧ size l % 2 = 0 ∧ (size l - c) + 1 = size l / 2)
    ∧ multipleMedian [((1 : ℚ), 2)] = none := by
  constructor
  · intro l
    cases l with
    | nil =>
      simp only [multipleMedian, multipleMedianGo, size_nil]
      constructor
      · intro h; exact absurd h (by simp)
      · rintro ⟨v, c, t, h, -, -⟩; exact absurd h (by simp)
    | cons x t =>
      obtain ⟨v, c⟩ := x
      constructor
      · intro hnone
        unfold multipleMedian at hnone
        simp only [multipleMedianGo] at hnone
        by_cases h1 : (size ((v, c) :: t) - c) + 1 = size ((v, c) :: t) / 2
            ∧ (size ((v, c) :: t) % 2 == 0) = true
        · exact ⟨v, c, t, rfl, by simpa using h1.2, h1.1⟩
        · rw [if_neg h1] at hnone
          split at hnone
          · exact absurd hnone (by simp)
          · exact absurd hnone
              (multipleMedianGo_some_ne_none _ _ t v (size ((v, c) :: t) - c))
      · rintro ⟨v2, c2, t2, heq, hev, hcond⟩
        obtain ⟨rfl, rfl, rfl⟩ : v2 = v ∧ c2 = c ∧ t2 = t := by
          injection heq with h1 h2
          injection h1 with h3 h4
          exact ⟨h3.symm, h4.symm, h2.symm⟩
        unfold multipleMedian
        simp only [multipleMedianGo]
        rw [if_pos ⟨hcond, by simpa [size_cons] using hev⟩]
  · decide

/-- C4 (code_bug): `split_start(1)` on `[(1.0, 2)]` correctly returns the
leading sub-list `[(1.0, 1)]` of weight exactly 1, but `split_end(1)` on the
same list panics: it computes `count - (len - sum)` with `sum = 2 > len = 1`,
so the `usize` subtraction `len - sum` underflows (in release builds the
wrapped value would make the result weight 3 and the function would fail its
own `debug_assert_eq!(len, Self::size(&list))`).  When `len` lands exactly on
a cluster boundary (`split_end(2)`) the subtraction is `2 - 2 = 0` and the
call succeeds, which is why the bug only shows when `len` falls strictly
inside a cluster. -/
theorem claim4_splitEnd_underflow :
    splitStart [((1 : ℚ), 2)] 1 = some ([(1, 1)], 1)
    ∧ splitEnd [((1 : ℚ), 2)] 1 = none
    ∧ splitEnd [((1 : ℚ), 2)] 2 = some ([(1, 2)], 2) := by
  refine ⟨by decide, by decide, by decide⟩

section CollectLemmas

variable {α : Type} {κ : Type} [DecidableEq κ] (key : α → κ)

theorem keyOccs_upsert (k : κ) (v : α) (c : ℕ) :
    ∀ acc : List (α × ℕ), keyOccs key k (upsert key v c acc)
      = if key v = k then (if keyOccs key k acc = 0 then 1 else keyOccs key k acc)
        else keyOccs key k acc := by
  intro acc
  induction acc with
  | nil => simp [upsert, keyOccs]
  | cons x t ih =>
    obtain ⟨w, d⟩ := x
    simp only [upsert]
    by_cases hw : key w = key v
    · rw [if_pos hw]
      simp only [keyOccs, hw]
      split_ifs <;> omega
    · rw [if_neg hw]
      simp only [keyOccs, ih]
      by_cases hvk : key v = k
      · have hwk : ¬ key w = k := fun h => hw (h.trans hvk.symm)
        simp only [if_pos hvk, if_neg hwk]
        split_ifs <;> omega
      · simp only [if_neg hvk]

theorem keyWeight_upsert (k : κ) (v : α) (c : ℕ) :
    ∀ acc : List (α × ℕ), keyWeight key k (upsert key v c acc)
      = keyWeight key k acc + (if key v = k then c else 0) := by
  intro acc
  induction acc with
  | nil => simp [upsert, keyWeight]
  | cons x t ih =>
    obtain ⟨w, d⟩ := x
    simp only [upsert]
    by_cases hw : key w = key v
    · rw [if_pos hw]
      simp only [keyWeight, hw]
      split_ifs <;> omega
    · rw [if_neg hw]
      simp only [keyWeight, ih]
      split_ifs <;> omega

theorem weight_upsert (v : α) (c : ℕ) :
    ∀ acc : List (α × ℕ), weight (upsert key v c acc) = weight acc + c := by
  intro acc
  induction acc with
  | nil => simp [upsert, weight]
  | cons x t ih =>
    obtain ⟨w, d⟩ := x
    simp only [upsert]
    split_ifs with hw
    · simp only [weight, List.map_cons, List.sum_cons]; omega
    · simp only [weight, List.map_cons, List.sum_cons] at ih ⊢; omega

theorem keyOccs_foldl (k : κ) :
    ∀ (l : List (α × ℕ)) (acc : List (α × ℕ)),
      keyOccs key k (l.foldl (fun acc p => upsert key p.1 p.2 acc) acc)
        = if keyOccs key k acc = 0 then (if keyOccs key k l = 0 then 0 else 1)
          else keyOccs key k acc := by
  intro l
  induction l with
  | nil =>
    intro acc
    simp only [List.foldl_nil, keyOccs]
    split_ifs with h
    · exact h
    · rfl
  | cons x t ih =>
    intro acc
    obtain ⟨v, c⟩ := x
    simp only [List.foldl_cons, ih, keyOccs_upsert, keyOccs]
    split_ifs <;> first | rfl | contradiction | omega

theorem keyWeight_foldl (k : κ) :
    ∀ (l : List (α × ℕ)) (acc : List (α × ℕ)),
      keyWeight key k (l.foldl (fun acc p => upsert key p.1 p.2 acc) acc)
        = keyWeight key k acc + keyWeight key k l := by
  intro l
  induction l with
  | nil => intro acc; simp [keyWeight]
  | cons x t ih =>
    intro acc
    obtain ⟨v, c⟩ := x
    simp only [List.foldl_cons, ih, keyWeight_upsert, keyWeight]
    omega

theorem weight_foldl :
    ∀ (l : List (α × ℕ)) (acc : List (α × ℕ)),
      weight (l.foldl (fun acc p => upsert key p.1 p.2 acc) acc) = weight acc + weight l := by
  intro l
  induction l with
  | nil => intro acc; simp [weight]
  | cons x t ih =>
    intro acc
    obtain ⟨v, c⟩ := x
    simp only [List.foldl_cons, ih, weight_upsert]
    simp only [weight, List.map_cons, List.sum_cons]
    omega

theorem mem_keysOf_upsert (v : α) (c : ℕ) (x : κ) :
    ∀ acc : List (α × ℕ),
      x ∈ keysOf key (upsert key v c acc) → x ∈ keysOf key acc ∨ x = key v := by
  intro acc
  induction acc with
  | nil => intro h; right; simpa [upsert, keysOf] using h
  | cons y t ih =>
    obtain ⟨w, d⟩ := y
    intro h
    simp only [upsert] at h
    split_ifs at h with hw
    · left; simpa [keysOf] using h
    · simp only [keysOf, List.map_cons, List.mem_cons] at h ⊢
      rcases h with h | h
      · left; left; exact h
      · rcases ih h with h2 | h2
        · left; right; exact h2
        · right; exact h2

theorem nodup_keysOf_upsert (v : α) (c : ℕ) :
    ∀ acc : List (α × ℕ),
      (keysOf key acc).Nodup → (keysOf key (upsert key v c acc)).Nodup := by
  intro acc
  induction acc with
  | nil => intro h; simp [upsert, keysOf]
  | cons y t ih =>
    obtain ⟨w, d⟩ := y
    intro h
    simp only [keysOf, List.map_cons, List.nodup_cons] at h
    simp only [upsert]
    split_ifs with hw
    · simp only [keysOf, List.map_cons, List.nodup_cons]
      exact h
    · simp only [keysOf, List.map_cons, List.nodup_cons]
      refine ⟨fun hmem => ?_, ih h.2⟩
      rcases mem_keysOf_upsert key v c (key w) t hmem with h2 | h2
      · exact h.1 h2
      · exact hw h2

theorem nodup_keysOf_foldl :
    ∀ (l acc : List (α × ℕ)),
      (keysOf key acc).Nodup →
      (keysOf key (l.foldl (fun acc p => upsert key p.1 p.2 acc) acc)).Nodup := by
  intro l
  induction l with
  | nil => intro acc h; simpa using h
  | cons x t ih =>
    intro acc h
    obtain ⟨v, c⟩ := x
    simp only [List.foldl_cons]
    exact ih _ (nodup_keysOf_upsert key v c acc h)

theorem nodup_keysOf_collectBy (l : List (α × ℕ)) :
    (keysOf key (collectBy key l)).Nodup := by
  unfold collectBy
  exact nodup_keysOf_foldl key l [] (by simp [keysOf])

theorem upsert_of_key_not_mem (v : α) (c : ℕ) :
    ∀ acc : List (α × ℕ), key v ∉ keysOf key acc →
      upsert key v c acc = acc ++ [(v, c)] := by
  intro acc
  induction acc with
  | nil => intro h; simp [upsert]
  | cons y t ih =>
    obtain ⟨w, d⟩ := y
    intro h
    simp only [keysOf, List.map_cons, List.mem_cons, not_or] at h
    simp only [upsert]
    rw [if_neg (fun hw => h.1 hw.symm), ih (by simpa [keysOf] using h.2)]
    simp

theorem foldl_of_nodup :
    ∀ (l acc : List (α × ℕ)),
      (keysOf key acc ++ keysOf key l).Nodup →
      l.foldl (fun acc p => upsert key p.1 p.2 acc) acc = acc ++ l := by
  intro l
  induction l with
  | nil => intro acc h; simp
  | cons x t ih =>
    intro acc h
    obtain ⟨v, c⟩ := x
    simp only [List.foldl_cons]
    have hvnot : key v ∉ keysOf key acc := by
      intro hmem
      have := List.disjoint_of_nodup_append h
      exact this hmem (by simp [keysOf])
    rw [upsert_of_key_not_mem key v c acc hvnot]
    rw [ih (acc ++ [(v, c)]) ?_]
    · simp
    · have : keysOf key (acc ++ [(v, c)]) = keysOf key acc ++ [key v] := by
        simp [keysOf]
      rw [this]
      simpa [keysOf, List.append_assoc] using h

theorem collectBy_idem (l : List (α × ℕ)) :
    collectBy key (collectBy key l) = collectBy key l := by
  have h := nodup_keysOf_collectBy key l
  unfold collectBy
  rw [foldl_of_nodup key _ [] (by simpa [keysOf] using h)]
  simp

end CollectLemmas
/-- C8 (confirmed): `optimize_values` is idempotent — applying it twice gives
the same clusters with the same counts as applying it once — and every
application preserves the total weight exactly, both the cached `len` (which
the code copies through unchanged) and the sum of all counts. -/
theorem claim8_optimizeValues_idempotent (x : OwnedF64ClusterList) :
    optimizeValues (optimizeValues x) = optimizeValues x
    ∧ (optimizeValues x).len = x.len
    ∧ weight (optimizeValues x).list = weight x.list := by
  refine ⟨?_, rfl, ?_⟩
  · unfold optimizeValues
    simp only [collectBy_idem]
  · unfold optimizeValues
    simp only
    unfold collectBy
    rw [weight_foldl]
    simp [weight]

/-- C9 (confirmed): `optimize_values` merges clusters exactly when their
values have identical IEEE-754 bit patterns: in the output every bit pattern
present in the input occurs exactly once, with the summed count; in
particular `+0.0`/`-0.0` and two NaN payloads — mathematically equal or
equivalent values with distinct bit patterns — are left unmerged, while
bit-identical clusters are merged with counts added. -/
theorem claim9_optimizeValues_bitpattern (l : List (F64Bits × ℕ)) (k : ℕ) :
    (keyOccs F64Bits.key k (collectBy F64Bits.key l)
       = if keyOccs F64Bits.key k l = 0 then 0 else 1)
    ∧ keyWeight F64Bits.key k (collectBy F64Bits.key l) = keyWeight F64Bits.key k l
    ∧ collectBy F64Bits.key [(posZeroBits, 1), (negZeroBits, 1)]
        = [(posZeroBits, 1), (negZeroBits, 1)]
    ∧ collectBy F64Bits.key [(nanBitsA, 1), (nanBitsB, 1)]
        = [(nanBitsA, 1), (nanBitsB, 1)]
    ∧ collectBy F64Bits.key [(posZeroBits, 2), (posZeroBits, 3)] = [(posZeroBits, 5)] := by
  refine ⟨?_, ?_, by decide, by decide, by decide⟩
  · unfold collectBy
    rw [keyOccs_foldl]
    simp [keyOccs]
  · unfold collectBy
    rw [keyWeight_foldl]
    simp [keyWeight]

/-- C5 (confirmed): in the (debug-build) model, `ols::polynomial` fails with
the insufficient-data assertion exactly when `degree ≥ len`, and — for
`degree < len` — fails with the `try_inverse().unwrap()` panic exactly when
the normal-equations matrix `XᵀX` is singular; otherwise it returns
coefficients.  The two failure modes are distinct constructors, hence
distinguishable. -/
theorem claim5_polynomial_error_modes :
    ∀ (xs ys : List ℚ) (degree : ℕ), ys.length = xs.length →
      (xs.length ≤ degree →
        polynomialE xs ys xs.length degree = .error .insufficientData)
      ∧ (degree < xs.length →
          (detN (degree + 1) (gramN xs xs.length degree) = 0 →
            polynomialE xs ys xs.length degree = .error .inverseUnwrap)
          ∧ (detN (degree + 1) (gramN xs xs.length degree) ≠ 0 →
            ∃ cs, polynomialE xs ys xs.length degree = .ok cs))
      ∧ Panic.insufficientData ≠ Panic.inverseUnwrap := by
  intro xs ys degree hlen
  refine ⟨?_, ?_, by decide⟩
  · intro hle
    unfold polynomialE
    rw [if_pos (by omega)]
  · intro hlt
    constructor
    · intro hdet
      unfold polynomialE
      rw [if_neg (by omega), if_neg (by omega), if_pos hdet]
    · intro hdet
      unfold polynomialE
      rw [if_neg (by omega), if_neg (by omega), if_neg hdet]
      exact ⟨_, rfl⟩

/-- C5, witness: `degree = 2` with two points trips the insufficient-data
assertion; collinear predictors `[1,1,1]` make `XᵀX = [[3,3],[3,3]]` singular
and trip the inverse unwrap; two distinct predictors give coefficients. -/
theorem claim5_polynomial_error_modes_witness :
    polynomialE [1, 2] [1, 2] 2 2 = .error .insufficientData
    ∧ polynomialE [1, 1, 1] [1, 2, 3] 3 1 = .error .inverseUnwrap
    ∧ ∃ cs, polynomialE [1, 2] [1, 2] 2 1 = .ok cs := by
  have h1 := claim5_polynomial_error_modes [1, 2] [1, 2] 2 (by norm_num)
  have h2 := claim5_polynomial_error_modes [1, 1, 1] [1, 2, 3] 1 (by norm_num)
  have h3 := claim5_polynomial_error_modes [1, 2] [1, 2] 1 (by norm_num)
  refine ⟨?_, ?_, ?_⟩
  · have := h1.1 (by norm_num)
    simpa using this
  · have hdet : detN 2 (gramN [1, 1, 1] 3 1) = 0 := by
      norm_num [detN, gramN, adjugateN, designEntry, skipF, List.finRange_succ_eq_map,
        List.finRange_zero]
    have := (h2.2.1 (by norm_num)).1 (by simpa using hdet)
    simpa using this
  · have hdet : detN 2 (gramN [1, 2] 2 1) ≠ 0 := by
      norm_num [detN, gramN, adjugateN, designEntry, skipF, List.finRange_succ_eq_map,
        List.finRange_zero]
    have := (h3.2.1 (by norm_num)).2 (by simpa using hdet)
    simpa using this

/-- C6, counterexample.  The claim says the 1.5 bump is not applied to
exponents not within 0.15 of an integer, naming `e = -0.5`.  The fractional
distance of `-0.5` to the nearest integer is `0.5 ≥ 0.15`, yet the code
computes `distance_from_zero = -(0.5 - (-0.5)).abs() + 0.5 = -0.5 < 0.15`
through the Rust `%` remainder (sign of the dividend), so the 1.5 factor *is*
applied: with R² = 0.5 (no 1.3 bumps) the multiplier is 1.5, not 1. -/
theorem claim6_powerBump_cex :
    powerBump (-(1 / 2)) (1 / 2) = 3 / 2
    ∧ ¬ (1 / 2 - |1 / 2 - Int.fract (-(1 / 2) : ℚ)| < 3 / 20)
    ∧ (3 / 2 : ℚ) ≠ 1 := by
  refine ⟨?_, ?_, by norm_num⟩
  · have htr : qtrunc (-(1 / 2)) = 0 := by
      unfold qtrunc
      rw [if_neg (by norm_num)]
      norm_num
    unfold powerBump fmodOne
    rw [htr]
    norm_num
  · have hfr : Int.fract (-(1 / 2) : ℚ) = 1 / 2 := by
      unfold Int.fract
      norm_num
    rw [hfr]
    norm_num

/-- C6, amended.  The power-candidate multiplier compounds as the claim says:
a 1.5 factor gated on the distance condition, times 1.3 when R² exceeds 0.8,
times another 1.3 when it exceeds 0.92.  For `e ≥ 0` the gate coincides with
the claimed test `0.5 - |0.5 - frac e| < 0.15` (distance of the fractional
part to the nearest integer); but because the code uses the Rust `%`
remainder, every *negative* exponent — integer distance notwithstanding —
also receives the 1.5 factor. -/
theorem claim6_powerBump_characterization :
    ∀ e r : ℚ,
      powerBump e r
        = (if -|1 / 2 - fmodOne e| + 1 / 2 < 3 / 20 then 3 / 2 else 1)
            * ((if 4 / 5 < r then 13 / 10 else 1) * (if 23 / 25 < r then 13 / 10 else 1))
      ∧ (0 ≤ e →
          ((-|1 / 2 - fmodOne e| + 1 / 2 < 3 / 20)
            ↔ 1 / 2 - |1 / 2 - Int.fract e| < 3 / 20))
      ∧ (e < 0 → powerBump e r
          = 3 / 2 * ((if 4 / 5 < r then 13 / 10 else 1) * (if 23 / 25 < r then 13 / 10 else 1))) := by
  intro e r
  refine ⟨?_, ?_, ?_⟩
  · simp only [powerBump]
    split_ifs <;> ring
  · intro he
    have hq : fmodOne e = Int.fract e := by
      unfold fmodOne qtrunc Int.fract
      rw [if_pos he]
    rw [hq]
    constructor <;> intro h <;> linarith [abs_nonneg (1 / 2 - Int.fract e)]
  · intro he
    have hq : fmodOne e = e - (⌈e⌉ : ℚ) := by
      unfold fmodOne qtrunc
      rw [if_neg (by linarith)]
    have hfm : fmodOne e ≤ 0 := by
      rw [hq]
      have := Int.le_ceil e
      linarith
    have habs : |1 / 2 - fmodOne e| = 1 / 2 - fmodOne e := abs_of_nonneg (by linarith)
    have hcond : -|1 / 2 - fmodOne e| + 1 / 2 < 3 / 20 := by rw [habs]; linarith
    simp only [powerBump]
    rw [if_pos hcond]
    split_ifs <;> ring

/-- C6, witness: the characterization applied at `e = 2` (a clean integer
exponent, gate equivalent to the claimed test) and at `e = -1/2, R² = 1`
(negative exponent: 1.5 applied and both 1.3 bumps compound). -/
theorem claim6_powerBump_characterization_witness :
    ((0 : ℚ) ≤ 2
      ∧ ((-|1 / 2 - fmodOne (2 : ℚ)| + 1 / 2 < 3 / 20)
          ↔ 1 / 2 - |1 / 2 - Int.fract (2 : ℚ)| < 3 / 20))
    ∧ ((-(1 / 2) : ℚ) < 0
      ∧ powerBump (-(1 / 2)) 1 = 3 / 2 * ((13 / 10) * (13 / 10))) := by
  refine ⟨⟨by norm_num, (claim6_powerBump_characterization 2 0).2.1 (by norm_num)⟩, by norm_num, ?_⟩
  have h := (claim6_powerBump_characterization (-(1 / 2)) 1).2.2 (by norm_num)
  rw [h]
  norm_num

/-- C7 (code_bug): on predictors `[1, 3]` and outcomes `[2, 7]` there is a
single pair `i = 0 < j = 1`, so the Theil-Sen slope should be the single
pairwise slope `(y_0 - y_1) / (x_0 - x_1) = (2 - 7) / (1 - 3) = 5/2` and the
intercept `median(y) - slope * median(x) = 9/2 - (5/2) * 2 = -1/2`.  The code
actually returns slope `4` and intercept `-7/2`, because `slow_linear`
destructures the `((x_i, x_j), (y_i, y_j))` items of `permutations` as two
points `((x1, y1), (x2, y2))`, computing `(x_j - y_j) / (x_i - y_i) = 4` —
contradicting its own `// Δy/Δx` comment. -/
theorem claim7_slowLinear_pairing_bug :
    slowLinear [1, 3] [2, 7] = .ok { k := 4, m := -(7 / 2) }
    ∧ ((2 : ℚ) - 7) / (1 - 3) = 5 / 2
    ∧ (4 : ℚ) ≠ 5 / 2 := by
  refine ⟨?_, by norm_num, by norm_num⟩
  norm_num [slowLinear, permutationsTS, enumFromTS, medianSpec, sortQ, insertSorted]

/-! ### Lemmas for the `best_fit` selector -/

theorem determinationSlice_ok (p : ℚ → ℚ) {xs ys : List ℚ} (h : xs.length = ys.length) :
    determinationSlice p xs ys = .ok (determination p xs ys xs.length) := by
  unfold determinationSlice
  rw [if_pos h]

theorem determinationSlice_ne_finalUnwrap (p : ℚ → ℚ) (xs ys : List ℚ) :
    determinationSlice p xs ys ≠ .error .finalUnwrap := by
  unfold determinationSlice
  split_ifs <;> simp

theorem polynomialE_ne_finalUnwrap (xs ys : List ℚ) (len degree : ℕ) :
    polynomialE xs ys len degree ≠ .error .finalUnwrap := by
  unfold polynomialE
  split_ifs <;> simp

theorem updateBest_isSome (b : Option (RModel × ℚ)) (m : RModel) (w : ℚ) :
    ∃ p, updateBest b m w = some p := by
  cases b with
  | none => exact ⟨(m, w), rfl⟩
  | some q =>
    obtain ⟨bm, err⟩ := q
    simp only [updateBest]
    split_ifs <;> exact ⟨_, rfl⟩

theorem powerGivenMin_ne_finalUnwrap (log2 exp2 : ℚ → ℚ)
    (est : List ℚ → List ℚ → Except Panic LinearCoefficients)
    (hest : ∀ as bs, est as bs ≠ .error .finalUnwrap)
    (xs ys : List ℚ) (pmin omin : ℚ) :
    powerGivenMin log2 exp2 est xs ys pmin omin ≠ .error .finalUnwrap := by
  unfold powerGivenMin
  split_ifs
  · cases hc : est (xs.map fun p => log2 (p + (powAdd pmin).getD 0))
        (ys.map fun y => log2 (y + (powAdd omin).getD 0)) with
    | error e =>
      simp only [hc]
      intro hcon
      injection hcon with he
      exact hest _ _ (by rw [hc, he])
    | ok c => simp [hc]
  · simp
  · simp

theorem exponentialGivenMin_ne_finalUnwrap (log2 exp2 : ℚ → ℚ)
    (est : List ℚ → List ℚ → Except Panic LinearCoefficients)
    (hest : ∀ as bs, est as bs ≠ .error .finalUnwrap)
    (xs ys : List ℚ) (pmin omin : ℚ) :
    exponentialGivenMin log2 exp2 est xs ys pmin omin ≠ .error .finalUnwrap := by
  unfold exponentialGivenMin
  split_ifs
  · cases hc : est (match powAdd pmin with
        | some a => xs.map fun p => p + a
        | none => xs)
        (ys.map fun y => log2 (y + (powAdd omin).getD 0)) with
    | error e =>
      simp only [hc]
      intro hcon
      injection hcon with he
      exact hest _ _ (by rw [hc, he])
    | ok c => simp [hc]
  · simp
  · simp

theorem bestFitPowerStep_ne_finalUnwrap (log2 exp2 : ℚ → ℚ) (powf : ℚ → ℚ → ℚ)
    (est : List ℚ → List ℚ → Except Panic LinearCoefficients)
    (hest : ∀ as bs, est as bs ≠ .error .finalUnwrap)
    (xs ys : List ℚ) (pmin omin : ℚ) :
    bestFitPowerStep log2 exp2 powf est xs ys pmin omin ≠ .error .finalUnwrap := by
  unfold bestFitPowerStep
  split_ifs
  · cases hp : powerGivenMin log2 exp2 est xs ys pmin omin with
    | error e =>
      simp only [hp]
      intro hcon
      injection hcon with he
      exact powerGivenMin_ne_finalUnwrap log2 exp2 est hest xs ys pmin omin (by rw [hp, he])
    | ok pc =>
      simp only [hp]
      cases hd : determinationSlice (predictPower powf pc) xs ys with
      | error e =>
        simp only [hd]
        intro hcon
        injection hcon with he
        exact determinationSlice_ne_finalUnwrap _ xs ys (by rw [hd, he])
      | ok certainty =>
        simp only [hd]
        cases hq : exponentialGivenMin log2 exp2 est xs ys pmin omin with
        | error e =>
          simp only [hq]
          intro hcon
          injection hcon with he
          exact exponentialGivenMin_ne_finalUnwrap log2 exp2 est hest xs ys pmin omin
            (by rw [hq, he])
        | ok ec =>
          simp only [hq]
          cases hd2 : determinationSlice (predictExponential powf ec) xs ys with
          | error e =>
            simp only [hd2]
            intro hcon
            injection hcon with he
            exact determinationSlice_ne_finalUnwrap _ xs ys (by rw [hd2, he])
          | ok ce => simp [hd2]
  · simp

theorem bestFitPoly2Step_ne_finalUnwrap (xs ys : List ℚ) (best : Option (RModel × ℚ)) :
    bestFitPoly2Step xs ys best ≠ .error .finalUnwrap := by
  unfold bestFitPoly2Step
  split_ifs
  · cases hp : polynomialE xs ys xs.length 2 with
    | error e =>
      simp only [hp]
      intro hcon
      injection hcon with he
      exact polynomialE_ne_finalUnwrap xs ys xs.length 2 (by rw [hp, he])
    | ok cs =>
      simp only [hp]
      cases hd : determinationSlice (predictPoly cs) xs ys with
      | error e =>
        simp only [hd]
        intro hcon
        injection hcon with he
        exact determinationSlice_ne_finalUnwrap _ xs ys (by rw [hd, he])
      | ok e0 => simp [hd]
  · simp

theorem bestFitPoly3Step_ne_finalUnwrap (xs ys : List ℚ) (best : Option (RModel × ℚ)) :
    bestFitPoly3Step xs ys best ≠ .error .finalUnwrap := by
  unfold bestFitPoly3Step
  split_ifs
  · cases hp : polynomialE xs ys xs.length 3 with
    | error e =>
      simp only [hp]
      intro hcon
      injection hcon with he
      exact polynomialE_ne_finalUnwrap xs ys xs.length 3 (by rw [hp, he])
    | ok cs =>
      simp only [hp]
      cases hd : determinationSlice (predictPoly cs) xs ys with
      | error e =>
        simp only [hd]
        intro hcon
        injection hcon with he
        exact determinationSlice_ne_finalUnwrap _ xs ys (by rw [hd, he])
      | ok e0 => simp [hd]
  · simp

theorem bestFitLinearStep_ne_finalUnwrap
    (est : List ℚ → List ℚ → Except Panic LinearCoefficients)
    (hest : ∀ as bs, est as bs ≠ .error .finalUnwrap)
    (xs ys : List ℚ) (best : Option (RModel × ℚ)) :
    bestFitLinearStep est xs ys best ≠ .error .finalUnwrap := by
  unfold bestFitLinearStep
  cases hlin : est xs ys with
  | error e =>
    simp only [hlin]
    intro hcon
    injection hcon with he
    exact hest xs ys (by rw [hlin, he])
  | ok lin =>
    simp only [hlin]
    cases hd : determinationSlice (predictLinear lin) xs ys with
    | error e =>
      simp only [hd]
      intro hcon
      injection hcon with he
      exact determinationSlice_ne_finalUnwrap _ xs ys (by rw [hd, he])
    | ok e0 =>
      simp only [hd]
      obtain ⟨p, hp⟩ := updateBest_isSome best (.linear lin) (e0 + 0)
      simp only [hp]
      simp

theorem bestFitPowerStep_ok_exists (log2 exp2 : ℚ → ℚ) (powf : ℚ → ℚ → ℚ)
    (est : List ℚ → List ℚ → Except Panic LinearCoefficients)
    (xs ys : List ℚ) (pmin omin : ℚ) (hlen : xs.length = ys.length)
    (hpow : 1 ≤ pmin → 1 ≤ omin →
      (∃ pc, powerGivenMin log2 exp2 est xs ys pmin omin = .ok pc)
      ∧ (∃ ec, exponentialGivenMin log2 exp2 est xs ys pmin omin = .ok ec)) :
    ∃ b, bestFitPowerStep log2 exp2 powf est xs ys pmin omin = .ok b := by
  unfold bestFitPowerStep
  by_cases h : 1 ≤ pmin ∧ 1 ≤ omin
  · rw [if_pos h]
    obtain ⟨⟨pc, hpc⟩, ⟨ec, hec⟩⟩ := hpow h.1 h.2
    simp only [hpc, hec, determinationSlice_ok (predictPower powf pc) hlen,
      determinationSlice_ok (predictExponential powf ec) hlen]
    exact ⟨_, rfl⟩
  · rw [if_neg h]
    exact ⟨_, rfl⟩

theorem bestFitPoly2Step_ok_exists (xs ys : List ℚ) (best : Option (RModel × ℚ))
    (hlen : xs.length = ys.length)
    (h15 : 15 < xs.length → ∃ cs, polynomialE xs ys xs.length 2 = .ok cs) :
    ∃ b, bestFitPoly2Step xs ys best = .ok b := by
  unfold bestFitPoly2Step
  by_cases h : 15 < xs.length
  · rw [if_pos h]
    obtain ⟨cs, hcs⟩ := h15 h
    simp only [hcs, determinationSlice_ok (predictPoly cs) hlen]
    exact ⟨_, rfl⟩
  · rw [if_neg h]
    exact ⟨_, rfl⟩

theorem bestFitPoly3Step_ok_exists (xs ys : List ℚ) (best : Option (RModel × ℚ))
    (hlen : xs.length = ys.length)
    (h50 : 50 < xs.length → ∃ cs, polynomialE xs ys xs.length 3 = .ok cs) :
    ∃ b, bestFitPoly3Step xs ys best = .ok b := by
  unfold bestFitPoly3Step
  by_cases h : 50 < xs.length
  · rw [if_pos h]
    obtain ⟨cs, hcs⟩ := h50 h
    simp only [hcs, determinationSlice_ok (predictPoly cs) hlen]
    exact ⟨_, rfl⟩
  · rw [if_neg h]
    exact ⟨_, rfl⟩

/-- C2 (confirmed): the final `best.unwrap()` of `best_fit` is unreachable as
a failure — for every instantiation of the transcendental primitives, every
linear estimator (itself free of that failure mode) and all inputs, the
selector never fails at the final unwrap, because the linear candidate is
evaluated unconditionally and `update_best!` always leaves `best` set.
Moreover, whenever the candidate fits that actually run succeed (equal-length
slices, more than 2 samples, a linear fit, power/exponential fits when both
minima are ≥ 1, and non-singular degree-2/3 fits when the sample-count guards
let them run), `best_fit` returns a model. -/
theorem claim2_bestFit_total :
    ∀ (log2 exp2 : ℚ → ℚ) (powf : ℚ → ℚ → ℚ)
      (est : List ℚ → List ℚ → Except Panic LinearCoefficients) (xs ys : List ℚ),
      (∀ as bs, est as bs ≠ .error .finalUnwrap) →
      (bestFitPair log2 exp2 powf est xs ys ≠ .error .finalUnwrap)
      ∧ (xs.length = ys.length →
          (∃ lin, est xs ys = .ok lin) →
          (∀ pm om, xs.min? = some pm → ys.min? = some om → 1 ≤ pm → 1 ≤ om →
            (∃ pc, powerGivenMin log2 exp2 est xs ys pm om = .ok pc)
            ∧ (∃ ec, exponentialGivenMin log2 exp2 est xs ys pm om = .ok ec)) →
          (15 < xs.length → ∃ cs, polynomialE xs ys xs.length 2 = .ok cs) →
          (50 < xs.length → ∃ cs, polynomialE xs ys xs.length 3 = .ok cs) →
          xs.min?.isSome → ys.min?.isSome →
          ∃ p, bestFitPair log2 exp2 powf est xs ys = .ok p) := by
  intro log2 exp2 powf est xs ys hest
  constructor
  · unfold bestFitPair
    cases hminx : xs.min? with
    | none => simp
    | some pmin =>
      simp only
      cases hminy : ys.min? with
      | none => simp
      | some omin =>
        simp only
        cases hps : bestFitPowerStep log2 exp2 powf est xs ys pmin omin with
        | error e =>
          simp only [hps]
          intro hcon
          injection hcon with he
          exact bestFitPowerStep_ne_finalUnwrap log2 exp2 powf est hest xs ys pmin omin
            (by rw [hps, he])
        | ok b0 =>
          simp only [hps]
          cases h2s : bestFitPoly2Step xs ys b0 with
          | error e =>
            simp only [h2s]
            intro hcon
            injection hcon with he
            exact bestFitPoly2Step_ne_finalUnwrap xs ys b0 (by rw [h2s, he])
          | ok b1 =>
            simp only [h2s]
            cases h3s : bestFitPoly3Step xs ys b1 with
            | error e =>
              simp only [h3s]
              intro hcon
              injection hcon with he
              exact bestFitPoly3Step_ne_finalUnwrap xs ys b1 (by rw [h3s, he])
            | ok b2 =>
              simp only [h3s]
              exact bestFitLinearStep_ne_finalUnwrap est hest xs ys b2
  · intro hlen hlin hpow h15 h50 hsx hsy
    obtain ⟨pmin, hminx⟩ := Option.isSome_iff_exists.mp hsx
    obtain ⟨omin, hminy⟩ := Option.isSome_iff_exists.mp hsy
    obtain ⟨b0, hb0⟩ := bestFitPowerStep_ok_exists log2 exp2 powf est xs ys pmin omin hlen
      (fun hp ho => hpow pmin omin hminx hminy hp ho)
    obtain ⟨b1, hb1⟩ := bestFitPoly2Step_ok_exists xs ys b0 hlen h15
    obtain ⟨b2, hb2⟩ := bestFitPoly3Step_ok_exists xs ys b1 hlen h50
    obtain ⟨lin, hl⟩ := hlin
    obtain ⟨p, hp⟩ := updateBest_isSome b2 (.linear lin)
      (determination (predictLinear lin) xs ys xs.length + 0)
    refine ⟨p, ?_⟩
    unfold bestFitPair
    rw [hminx, hminy]
    simp only [hb0, hb1, hb2]
    unfold bestFitLinearStep
    simp only [hl, determinationSlice_ok (predictLinear lin) hlen, hp]

theorem linearOlsE_ne_finalUnwrap (as bs : List ℚ) :
    linearOlsE as bs ≠ .error .finalUnwrap := by
  unfold linearOlsE
  cases hp : polynomialE as bs as.length 1 with
  | error e =>
    simp only [hp, Except.map]
    intro hcon
    injection hcon with he
    exact polynomialE_ne_finalUnwrap as bs as.length 1 (by rw [hp, he])
  | ok cs => simp [hp, Except.map]

theorem evalMinX : ([1, 2, 4] : List ℚ).min? = some 1 := by
  norm_num [List.min?, List.foldl_cons, List.foldl_nil, min_def]

theorem evalMinY : ([2, 8, 32] : List ℚ).min? = some 2 := by
  norm_num [List.min?, List.foldl_cons, List.foldl_nil, min_def]

theorem evalOls_logxy : linearOlsE [0, 1, 2] [1, 3, 5] = .ok ⟨2, 1⟩ := by
  have hlen : ([0, 1, 2] : List ℚ).length = 3 := rfl
  unfold linearOlsE
  rw [hlen]
  norm_num [polynomialE, gramN, xtyN, adjugateN, detN, designEntry, skipF,
    List.finRange_succ_eq_map, List.finRange_zero, Except.map]

theorem evalOls_logy : linearOlsE [1, 2, 4] [1, 3, 5] = .ok ⟨9 / 7, 0⟩ := by
  have hlen : ([1, 2, 4] : List ℚ).length = 3 := rfl
  unfold linearOlsE
  rw [hlen]
  norm_num [polynomialE, gramN, xtyN, adjugateN, detN, designEntry, skipF,
    List.finRange_succ_eq_map, List.finRange_zero, Except.map]

theorem evalOls_raw : linearOlsE [1, 2, 4] [2, 8, 32] = .ok ⟨72 / 7, -10⟩ := by
  have hlen : ([1, 2, 4] : List ℚ).length = 3 := rfl
  unfold linearOlsE
  rw [hlen]
  norm_num [polynomialE, gramN, xtyN, adjugateN, detN, designEntry, skipF,
    List.finRange_succ_eq_map, List.finRange_zero, Except.map]

theorem evalPower_c :
    powerGivenMin log2C exp2C linearOlsE [1, 2, 4] [2, 8, 32] 1 2
      = .ok ⟨2, 2, none, none⟩ := by
  norm_num [powerGivenMin, powAdd, log2C, exp2C, evalOls_logxy]

theorem evalExp_c :
    exponentialGivenMin log2C exp2C linearOlsE [1, 2, 4] [2, 8, 32] 1 2
      = .ok ⟨1, 0, none, none⟩ := by
  norm_num [exponentialGivenMin, powAdd, log2C, exp2C, evalOls_logy]

theorem evalDetPower :
    determination (predictPower powfC ⟨2, 2, none, none⟩) [1, 2, 4] [2, 8, 32] 3 = 1 := by
  norm_num [determination, predictPower, powfC]

theorem evalDetExp :
    determination (predictExponential powfC ⟨1, 0, none, none⟩) [1, 2, 4] [2, 8, 32] 3
      = -(13 / 6) + 1 := by
  norm_num [determination, predictExponential, powfC]

theorem evalDetLin :
    determination (predictLinear ⟨72 / 7, -10⟩) [1, 2, 4] [2, 8, 32] 3 = 48 / 49 := by
  norm_num [determination, predictLinear]

theorem evalPowerStep_c :
    bestFitPowerStep log2C exp2C powfC linearOlsE [1, 2, 4] [2, 8, 32] 1 2
      = .ok (some (.power ⟨2, 2, none, none⟩, 507 / 200)) := by
  have habs : |(1 : ℚ) / 2| = 1 / 2 := abs_of_pos (by norm_num)
  norm_num [bestFitPowerStep, evalPower_c, evalExp_c, determinationSlice, determination,
    predictPower, predictExponential, powfC, updateBest, powerBump, exponentialBump,
    fmodOne, qtrunc, habs]

theorem evalBestFitPair_c :
    bestFitPair log2C exp2C powfC linearOlsE [1, 2, 4] [2, 8, 32]
      = .ok (.power ⟨2, 2, none, none⟩, 507 / 200) := by
  norm_num [bestFitPair, evalMinX, evalMinY, evalPowerStep_c, bestFitPoly2Step,
    bestFitPoly3Step, bestFitLinearStep, evalOls_raw, determinationSlice, determination,
    predictLinear, updateBest]

/-- C2, witness: the totality part of `claim2_bestFit_total` applied at
`[1, 2, 4]` / `[2, 8, 32]` with the OLS estimator and the concrete
primitive tables. -/
theorem claim2_bestFit_total_witness :
    ∃ p, bestFitPair log2C exp2C powfC linearOlsE [1, 2, 4] [2, 8, 32] = .ok p := by
  refine (claim2_bestFit_total log2C exp2C powfC linearOlsE [1, 2, 4] [2, 8, 32]
    linearOlsE_ne_finalUnwrap).2 (by norm_num) ⟨⟨72 / 7, -10⟩, evalOls_raw⟩ ?_
    (fun h => absurd h (by norm_num)) (fun h => absurd h (by norm_num))
    (by rw [evalMinX]; rfl) (by rw [evalMinY]; rfl)
  intro pm om hpm hom hp1 ho1
  rw [evalMinX] at hpm
  rw [evalMinY] at hom
  injection hpm with hpm2
  injection hom with hom2
  subst hpm2
  subst hom2
  exact ⟨⟨_, evalPower_c⟩, ⟨_, evalExp_c⟩⟩

/-- C3, counterexample.  On `[1, 2, 4]` / `[2, 8, 32]` the winning candidate
is the power fit `y = 2x²`, whose raw R² against the original data is exactly
1; but the value the selector stores alongside the winner — the only R²-like
number it tracks — is the *bumped* score `1 · 1.5 · 1.3 · 1.3 = 2.535`, not
the raw R².  (And the function returns only `.0` of the pair, so not even
that number reaches the caller — see `claim3_bestFit_model_only`.) -/
theorem claim3_bestFit_raw_r2_cex :
    bestFitPair log2C exp2C powfC linearOlsE [1, 2, 4] [2, 8, 32]
      = .ok (.power ⟨2, 2, none, none⟩, 507 / 200)
    ∧ determination (predictPower powfC ⟨2, 2, none, none⟩) [1, 2, 4] [2, 8, 32] 3 = 1
    ∧ (507 / 200 : ℚ) ≠ 1 :=
  ⟨evalBestFitPair_c, evalDetPower, by norm_num⟩

/-- C3, amended: `best_fit` exposes only the winning model to the caller —
it returns the first component of the internally tracked
`(model, bumped score)` pair and discards the score; no R², raw or bumped,
is part of the output. -/
theorem claim3_bestFit_model_only :
    ∀ (log2 exp2 : ℚ → ℚ) (powf : ℚ → ℚ → ℚ)
      (est : List ℚ → List ℚ → Except Panic LinearCoefficients)
      (xs ys : List ℚ) (p : RModel × ℚ),
      bestFitPair log2 exp2 powf est xs ys = .ok p →
      bestFit log2 exp2 powf est xs ys = .ok p.1 := by
  intro log2 exp2 powf est xs ys p h
  unfold bestFit
  rw [h]

/-- C3, witness for the amended statement: at the concrete input the caller
receives exactly the power model, with no score attached. -/
theorem claim3_bestFit_model_only_witness :
    bestFit log2C exp2C powfC linearOlsE [1, 2, 4] [2, 8, 32]
      = .ok (.power ⟨2, 2, none, none⟩) :=
  claim3_bestFit_model_only log2C exp2C powfC linearOlsE [1, 2, 4] [2, 8, 32]
    (.power ⟨2, 2, none, none⟩, 507 / 200) evalBestFitPair_c

end StdDev